import Mathlib

/-!
Verification of the pprof in-process profiler (src/src/lib.rs) against its
natural-language specification.

The Rust code is shallowly embedded as follows.  Timestamps that the code
obtains from `Instant::now()` (or `rdtsc` in cycle-counter mode; we embed the
default wall-clock build) are explicit `Nat` arguments, in nanoseconds.  The
`u64` counters are modelled as `Nat`; note that wherever a theorem depends on a
`u64` subtraction not underflowing, the no-underflow condition appears as an
explicit hypothesis so that the `Nat` truncated subtraction agrees with the
machine subtraction.  The global `PROFILER` mutex singleton becomes explicit
state passing of a `Profiler` value; `Block::drop` becomes an explicit close
event applied to the innermost open block, which is how RAII drops fire for
properly nested scopes on a single thread.  `print` writes to stdout; we embed
it as the pure function from profiler state and current time to the report it
emits (header total plus one line per anchor, with the exact numeric fields the
code formats, as exact rationals) paired with the (unchanged) state.
-/

namespace PProf

/-- Embeds `struct Anchor` (src/src/lib.rs lines 67-75).  The Rust
`#[derive(Default)]` corresponds to the derived `Inhabited` instance: empty
name and zero counters. -/
structure Anchor where
  name : String
  calls : Nat
  elapsed : Nat
  children_elapsed : Nat
  self_children_elapsed : Nat
  bytes : Nat
  deriving Repr, DecidableEq, Inhabited

/-- `Anchor::new` (lines 78-87). -/
def Anchor.new (name : String) : Anchor :=
  ⟨name, 0, 0, 0, 0, 0⟩

/-- `Anchor::update` (lines 89-92). -/
def Anchor.update (a : Anchor) (duration : Nat) : Anchor :=
  { a with elapsed := a.elapsed + duration, calls := a.calls + 1 }

/-- `Anchor::update_from_child` (lines 94-96). -/
def Anchor.update_from_child (a : Anchor) (duration : Nat) : Anchor :=
  { a with children_elapsed := a.children_elapsed + duration }

/-- `Anchor::update_from_self_child` (lines 98-100). -/
def Anchor.update_from_self_child (a : Anchor) (duration : Nat) : Anchor :=
  { a with self_children_elapsed := a.self_children_elapsed + duration }

/-- Embeds `struct Block` (lines 11-14, wall-clock build): the anchor id and
the creation timestamp. -/
structure Block where
  anchor_id : Nat
  start : Nat
  deriving Repr, DecidableEq

/-- `Block::elapsed` (lines 25-27): nanoseconds since the block started,
with the current time passed explicitly. -/
def Block.elapsed (b : Block) (now : Nat) : Nat :=
  now - b.start

/-- Embeds `struct Profiler` (lines 103-107). -/
structure Profiler where
  anchor_id_stack : List Nat
  anchors : List Anchor
  start : Nat
  deriving Repr, DecidableEq

/-- `Profiler::new` (lines 123-129). -/
def Profiler.new (now : Nat) : Profiler :=
  ⟨[], [], now⟩

/-- `Profiler::get_anchor_id` (lines 131-140): linear lookup by name
(`iter().position`), appending a fresh anchor when absent, then pushing the id
onto `anchor_id_stack`.  The `Vec` push is an append at the end of the list. -/
def Profiler.get_anchor_id (p : Profiler) (name : String) : Nat × Profiler :=
  match p.anchors.findIdx? (fun n => n.name == name) with
  | some i => (i, { p with anchor_id_stack := p.anchor_id_stack ++ [i] })
  | none =>
      let i := p.anchors.length
      (i, { p with anchors := p.anchors ++ [Anchor.new name],
                   anchor_id_stack := p.anchor_id_stack ++ [i] })

/-- The `for a in &self.anchor_id_stack` loop of `Profiler::add_block`
(lines 146-156), iterating the stack from the bottom, with the
`updated_children` dedup list.  Out-of-range indices make `List.set` a no-op
(the Rust indexing would panic; reachable states keep all ids in range). -/
def updateChildrenLoop (blockId duration : Nat) :
    List Nat → List Nat → List Anchor → List Anchor
  | [], _, anchors => anchors
  | a :: rest, updated, anchors =>
      if a ∈ updated then
        updateChildrenLoop blockId duration rest updated anchors
      else
        let anchors' :=
          if a = blockId then
            anchors.set a ((anchors.getD a default).update_from_self_child duration)
          else
            anchors.set a ((anchors.getD a default).update_from_child duration)
        updateChildrenLoop blockId duration rest (updated ++ [a]) anchors'

/-- `Profiler::add_block` (lines 142-157): pop the stack (`Vec::pop` removes
the last element), compute the block duration, update the target anchor, then
charge each distinct id remaining on the stack once. -/
def Profiler.add_block (p : Profiler) (block : Block) (now : Nat) : Profiler :=
  let stack := p.anchor_id_stack.dropLast
  let duration := block.elapsed now
  let anchors0 :=
    p.anchors.set block.anchor_id ((p.anchors.getD block.anchor_id default).update duration)
  { p with anchor_id_stack := stack,
           anchors := updateChildrenLoop block.anchor_id duration stack [] anchors0 }

/-- `get_duration_freq` (lines 110-112, wall-clock build): 1e9 ticks per
second. -/
def get_duration_freq : ℚ := 1000000000

/-- The raw (nanosecond) value whose scaled form `print` reports as the total
(inclusive) column: `anchor.elapsed - anchor.self_children_elapsed`
(line 165). -/
def reportedTotalRaw (a : Anchor) : Nat :=
  a.elapsed - a.self_children_elapsed

/-- The raw (nanosecond) value whose scaled form `print` reports as the self
(exclusive) column: `anchor.elapsed - anchor.children_elapsed` (line 166). -/
def reportedSelfRaw (a : Anchor) : Nat :=
  a.elapsed - a.children_elapsed

/-- One formatted line of the report (lines 180-189): the numeric fields the
code prints, as exact rationals. -/
structure ReportLine where
  name : String
  calls : Nat
  totalMs : ℚ
  totalPct : ℚ
  selfMs : ℚ
  selfPct : ℚ
  throughput : Option (ℚ × ℚ)
  deriving Repr, DecidableEq

/-- The per-anchor body of the `print` loop (lines 164-189). -/
def Anchor.reportLine (a : Anchor) (total_ns : Nat) : ReportLine :=
  let elapsed : ℚ := (reportedTotalRaw a : ℚ) / get_duration_freq
  let self_elapsed : ℚ := (reportedSelfRaw a : ℚ) / get_duration_freq
  let elapsed_percentage : ℚ := elapsed / ((total_ns : ℚ) / 1000000) * 100
  let self_elapsed_percentage : ℚ := self_elapsed / ((total_ns : ℚ) / 1000000) * 100
  let throughput : Option (ℚ × ℚ) :=
    if a.bytes ≠ 0 then
      some ((a.bytes : ℚ) / (1024 * 1024),
            (a.bytes : ℚ) / (1024 * 1024 * 1024) / elapsed)
    else none
  ⟨a.name, a.calls, elapsed * 1000, elapsed_percentage,
   self_elapsed * 1000, self_elapsed_percentage, throughput⟩

/-- The whole report `print` emits: the header session total
(`self.start.elapsed()`, line 160) and one line per anchor, in registry
order. -/
structure Report where
  total_ns : Nat
  lines : List ReportLine
  deriving Repr, DecidableEq

/-- `Profiler::print` (lines 159-191).  Every statement of the Rust body is a
read; the function returns the report together with the unchanged state. -/
def Profiler.print (p : Profiler) (now : Nat) : Report × Profiler :=
  let total_ns := now - p.start
  (⟨total_ns, p.anchors.map (fun a => a.reportLine total_ns)⟩, p)

/-- `Profiler::add_bytes` (lines 193-195). -/
def Profiler.add_bytes (p : Profiler) (anchor_id bytes : Nat) : Profiler :=
  let a := p.anchors.getD anchor_id default
  { p with anchors := p.anchors.set anchor_id { a with bytes := a.bytes + bytes } }

/-- `pub fn init` (lines 229-231): overwrite the start epoch of the global
profiler. -/
def init (p : Profiler) (now : Nat) : Profiler :=
  { p with start := now }

/-! ### Client-side scope lifecycle

A caller interacts with the profiler through `block!`/RAII: opening a scope
calls `get_anchor_id` and constructs a `Block`; leaving the scope drops the
most recently created live `Block`, which calls `add_block`.  We embed a
single-threaded, properly nested client as a list of timestamped events
interpreted against the profiler plus the list of currently open blocks
(innermost first). -/

/-- A client event: begin a scope (the `block!` macro: `get_anchor_id` then
`Block::new` at time `t`), or end the innermost open scope (its `Drop` at time
`t`). -/
inductive Event where
  | openScope (name : String) (t : Nat)
  | closeScope (t : Nat)
  deriving Repr, DecidableEq

/-- Profiler plus the open blocks held by the client, innermost first. -/
structure RunState where
  prof : Profiler
  blocks : List Block
  deriving Repr, DecidableEq

/-- A fresh process: `Profiler::new` at time `t`, no open scopes. -/
def RunState.new (t : Nat) : RunState :=
  ⟨Profiler.new t, []⟩

/-- One event.  Ending a scope with no open block is a client contract
violation the library never observes (there is no `Block` to drop); it is a
no-op here. -/
def step (s : RunState) (e : Event) : RunState :=
  match e with
  | .openScope name t =>
      let r := s.prof.get_anchor_id name
      ⟨r.2, ⟨r.1, t⟩ :: s.blocks⟩
  | .closeScope t =>
      match s.blocks with
      | [] => s
      | b :: rest => ⟨s.prof.add_block b t, rest⟩

/-- Run a list of client events. -/
def run (events : List Event) (s : RunState) : RunState :=
  events.foldl step s

/-- Session elapsed nanoseconds as `print` computes it
(`self.start.elapsed()`, line 160). -/
def sessionNs (p : Profiler) (now : Nat) : Nat :=
  now - p.start

/-- The events of a pure self-recursion on one anchor: open each level in
order (outermost first), then close the levels innermost first.  `levels`
lists the (open, close) timestamps of each level, outermost first. -/
def recEvents (name : String) (levels : List (Nat × Nat)) : List Event :=
  levels.map (fun l => Event.openScope name l.1)
    ++ levels.reverse.map (fun l => Event.closeScope l.2)

/-- Sum of the wall spans of a list of (open, close) timestamp pairs. -/
def durSum (l : List (Nat × Nat)) : Nat :=
  (l.map (fun pc => pc.2 - pc.1)).sum

/-- Sum of the spans of every pair except the last one. -/
def durSumInner : List (Nat × Nat) → Nat
  | [] => 0
  | [_] => 0
  | l :: rest => (l.2 - l.1) + durSumInner rest

/-- Whether (open, close) pairs, outermost first, form a properly nested
recursion: each level opens after the enclosing one and closes before it. -/
def nestedChain : List (Nat × Nat) → Bool
  | [] => true
  | [l] => decide (l.1 ≤ l.2)
  | l :: l' :: rest =>
      decide (l.1 ≤ l'.1) && decide (l'.2 ≤ l.2) && nestedChain (l' :: rest)

/-- Stated from the specification wording, for comparison with what the code
computes: the sum of the non-overlapping self-time slices of each recursion
level — each level's span minus the span of the directly nested level. -/
def specSelfSliceSum : List (Nat × Nat) → Nat
  | [] => 0
  | [l] => l.2 - l.1
  | l :: l' :: rest => ((l.2 - l.1) - (l'.2 - l'.1)) + specSelfSliceSum (l' :: rest)

/-- Client/profiler consistency along a run: the profiler stack mirrors the
open blocks (the innermost block's id is the last `Vec` element), holds no
duplicate anchor id, and every id on it indexes the anchor table. -/
def StackOk (s : RunState) : Prop :=
  s.prof.anchor_id_stack = (s.blocks.map Block.anchor_id).reverse
  ∧ s.prof.anchor_id_stack.Nodup
  ∧ ∀ i ∈ s.prof.anchor_id_stack, i < s.prof.anchors.length

/-- Checks a run for the absence of recursive re-entry: no open event targets
an anchor that already has an open scope. -/
def okNR : List Event → RunState → Bool
  | [], _ => true
  | (Event.openScope name t) :: es, s =>
      if (s.prof.get_anchor_id name).1 ∈ s.prof.anchor_id_stack then false
      else okNR es (step s (Event.openScope name t))
  | (Event.closeScope t) :: es, s => okNR es (step s (Event.closeScope t))

/-- Checks a run for nesting depth at most one (each scope is top-level or a
direct child of a top-level scope) and absence of recursive re-entry. -/
def okFlat : List Event → RunState → Bool
  | [], _ => true
  | (Event.openScope name t) :: es, s =>
      if 1 < s.blocks.length then false
      else if (s.prof.get_anchor_id name).1 ∈ s.prof.anchor_id_stack then false
      else okFlat es (step s (Event.openScope name t))
  | (Event.closeScope t) :: es, s => okFlat es (step s (Event.closeScope t))

/-- The top-level time a single close event contributes: the closed block's
duration when it is the only open block, 0 otherwise. -/
def topContribution (blocks : List Block) (t : Nat) : Nat :=
  match blocks with
  | [b] => b.elapsed t
  | _ => 0

/-- Total duration of the top-level scopes a run completes: the instrumented
portion of the session. -/
def topTime : List Event → RunState → Nat
  | [], _ => 0
  | (Event.openScope name t) :: es, s => topTime es (step s (Event.openScope name t))
  | (Event.closeScope t) :: es, s =>
      topContribution s.blocks t + topTime es (step s (Event.closeScope t))

/-- Sum of the `elapsed` counters over the registry. -/
def SE (p : Profiler) : Nat :=
  (p.anchors.map Anchor.elapsed).sum

/-- Sum of the `children_elapsed` counters over the registry. -/
def SC (p : Profiler) : Nat :=
  (p.anchors.map Anchor.children_elapsed).sum

/-- Everything the public API can do to the profiler after a lookup: further
lookups (`block!`), block completions (`Drop`/`add_block`), byte accounting,
session resets (`init`) and reports (`print`). -/
inductive Op where
  | lookup (name : String)
  | closeBlock (anchorId startT now : Nat)
  | addBytes (anchorId bytes : Nat)
  | reinit (now : Nat)
  | report (now : Nat)
  deriving Repr, DecidableEq

def applyOp (p : Profiler) : Op → Profiler
  | .lookup name => (p.get_anchor_id name).2
  | .closeBlock i st now => p.add_block ⟨i, st⟩ now
  | .addBytes i n => p.add_bytes i n
  | .reinit now => init p now
  | .report now => (p.print now).2

def applyOps (p : Profiler) (ops : List Op) : Profiler :=
  ops.foldl applyOp p

/-- The registry invariant C7 rests on: the first index matching `name` is a
fixed `i₀` and exactly one anchor carries `name`. -/
def NameInv (name : String) (i₀ : Nat) (p : Profiler) : Prop :=
  p.anchors.findIdx? (fun a => a.name == name) = some i₀
  ∧ p.anchors.countP (fun a => a.name == name) = 1

/-! ### Basic facts about `get_anchor_id` -/

theorem gai_found {p : Profiler} {name : String} {i : Nat}
    (h : p.anchors.findIdx? (fun n => n.name == name) = some i) :
    p.get_anchor_id name
      = (i, { p with anchor_id_stack := p.anchor_id_stack ++ [i] }) := by
  unfold Profiler.get_anchor_id
  rw [h]

theorem gai_none {p : Profiler} {name : String}
    (h : p.anchors.findIdx? (fun n => n.name == name) = none) :
    p.get_anchor_id name
      = (p.anchors.length,
         { p with anchors := p.anchors ++ [Anchor.new name],
                  anchor_id_stack := p.anchor_id_stack ++ [p.anchors.length] }) := by
  unfold Profiler.get_anchor_id
  rw [h]

theorem gai_stack (p : Profiler) (name : String) :
    ((p.get_anchor_id name).2).anchor_id_stack
      = p.anchor_id_stack ++ [(p.get_anchor_id name).1] := by
  cases h : p.anchors.findIdx? (fun n => n.name == name) with
  | none => rw [gai_none h]
  | some i => rw [gai_found h]

/-! ### Claim theorems -/

/-- C9: every call to `Profiler::get_anchor_id` pushes the returned id onto
the anchor-id stack: the stack grows by exactly one and its new top (the last
element of the `Vec`) is the returned id, so a name lookup always begins a
scope. -/
theorem C9_lookup_pushes (p : Profiler) (name : String) :
    ((p.get_anchor_id name).2).anchor_id_stack
      = p.anchor_id_stack ++ [(p.get_anchor_id name).1] ∧
    ((p.get_anchor_id name).2).anchor_id_stack.length
      = p.anchor_id_stack.length + 1 ∧
    ((p.get_anchor_id name).2).anchor_id_stack.getLast?
      = some (p.get_anchor_id name).1 := by
  refine ⟨gai_stack p name, ?_, ?_⟩ <;> rw [gai_stack p name] <;> simp

/-- C8: `init` overwrites only the session start epoch: the anchor table
(hence every name, calls, elapsed counter and byte count), and the anchor-id
stack are exactly what they were. -/
theorem C8_init_only_start (p : Profiler) (now : Nat) :
    (init p now).anchor_id_stack = p.anchor_id_stack ∧
    (init p now).anchors = p.anchors ∧
    (init p now).start = now :=
  ⟨rfl, rfl, rfl⟩

/-- C4 counterexample: there is no reserved virtual-root anchor.  At registry
initialization the anchor table is empty, and the very first user-supplied
name is assigned id 0. -/
theorem C4_cex :
    (Profiler.new 0).anchors = [] ∧
    ((Profiler.new 0).get_anchor_id "foo").1 = 0 := by
  decide

/-- C4 amended: the registry starts empty with no reserved root anchor; ids
are handed out from 0 upward in first-use order, so the first user-supplied
name receives id 0; and `print` emits one line for every registered anchor
(there is no root line to suppress and no `calls` filter). -/
theorem C4_amended :
    (∀ t, (Profiler.new t).anchors = []) ∧
    (∀ t name, ((Profiler.new t).get_anchor_id name).1 = 0) ∧
    (∀ p : Profiler, ∀ now, ((p.print now).1.lines).length = p.anchors.length) := by
  refine ⟨fun t => rfl, fun t name => ?_, fun p now => ?_⟩
  · rw [gai_none (by simp [Profiler.new])]
    simp [Profiler.new]
  · simp [Profiler.print]

/-- C5 counterexample: an anchor with `calls = 0` (registered by a lookup
whose scope has not finished) still produces a report line: the `print` loop
has no `calls > 0` filter. -/
theorem C5_cex :
    ((((Profiler.new 0).get_anchor_id "foo").2).anchors.map Anchor.calls = [0]) ∧
    ((((Profiler.new 0).get_anchor_id "foo").2).print 5).1.lines.length = 1 := by
  decide

/-- C5 amended: `print` emits exactly one report line per registered anchor —
including anchors with `calls = 0` — in registry (first-use) order, each line
labeled with the anchor name and call count. -/
theorem C5_amended (p : Profiler) (now : Nat) :
    ((p.print now).1.lines).map (fun l => (l.name, l.calls))
      = p.anchors.map (fun a => (a.name, a.calls)) := by
  simp only [Profiler.print, List.map_map]
  rfl

/-- C6 counterexample: two `print` calls with no intervening scope activity do
not yield identical figures when the session clock has advanced: the header
total and both percentage columns are computed from the session time at each
call.  Shown on a session with one completed 1ns scope, printed at `now = 2`
and `now = 4`. -/
theorem C6_cex :
    ((run [Event.openScope "a" 0, Event.closeScope 1]
        (RunState.new 0)).prof.print 2).1
      ≠ ((run [Event.openScope "a" 0, Event.closeScope 1]
        (RunState.new 0)).prof.print 4).1 := by
  decide

/-- C6 amended: `print` leaves the profiler state (anchor table, stack, start
epoch) unchanged, and two calls with no intervening scope activity agree on
every per-anchor duration and throughput figure (name, calls, total ms, self
ms, throughput); only the header session total and the percentage columns
depend on the time of the call and grow with the session. -/
theorem C6_amended (p : Profiler) (n₁ n₂ : Nat) :
    (p.print n₁).2 = p ∧
    ((p.print n₁).1.lines).map
        (fun l => (l.name, l.calls, l.totalMs, l.selfMs, l.throughput))
      = ((p.print n₂).1.lines).map
        (fun l => (l.name, l.calls, l.totalMs, l.selfMs, l.throughput)) := by
  refine ⟨rfl, ?_⟩
  simp only [Profiler.print, List.map_map]
  rfl

/-- C2 counterexample: after a properly nested recursive trace (anchor `a`
re-entered once: outer scope spans 0..10, inner spans 2..8), the reported
exclusive value `elapsed - children_elapsed = 16` exceeds the reported
inclusive value `elapsed - self_children_elapsed = 10`, and `calls = 2 > 0`. -/
theorem C2_cex :
    0 < ((run [Event.openScope "a" 0, Event.openScope "a" 2,
               Event.closeScope 8, Event.closeScope 10]
          (RunState.new 0)).prof.anchors.getD 0 default).calls ∧
    ¬ (reportedSelfRaw
         ((run [Event.openScope "a" 0, Event.openScope "a" 2,
                Event.closeScope 8, Event.closeScope 10]
           (RunState.new 0)).prof.anchors.getD 0 default)
       ≤ reportedTotalRaw
         ((run [Event.openScope "a" 0, Event.openScope "a" 2,
                Event.closeScope 8, Event.closeScope 10]
           (RunState.new 0)).prof.anchors.getD 0 default)) := by
  decide

/-- C3 counterexample: one completed scope spanning 1..2 inside a session
running from 0 to 10: the anchors' reported exclusive times sum to 1, not to
the session elapsed time 10 — uninstrumented time is charged to no anchor
(there is no root anchor accumulating it). -/
theorem C3_cex :
    ¬ (((run [Event.openScope "a" 1, Event.closeScope 2]
          (RunState.new 0)).prof.anchors.map reportedSelfRaw).sum
        = sessionNs (run [Event.openScope "a" 1, Event.closeScope 2]
            (RunState.new 0)).prof 10) := by
  decide

/-! ### The recursion scenario (C1) -/

@[simp] theorem run_nil (s : RunState) : run [] s = s := rfl

@[simp] theorem run_cons (e : Event) (es : List Event) (s : RunState) :
    run (e :: es) s = run es (step s e) := rfl

theorem run_append (es₁ es₂ : List Event) (s : RunState) :
    run (es₁ ++ es₂) s = run es₂ (run es₁ s) :=
  List.foldl_append ..


theorem durSumInner_concat (l : List (Nat × Nat)) (x : Nat × Nat) :
    durSumInner (l ++ [x]) = durSum l := by
  induction l with
  | nil => simp [durSumInner, durSum]
  | cons p rest ih =>
      cases rest with
      | nil => simp [durSumInner, durSum]
      | cons q rest' =>
          have h2 : durSumInner ((p :: q :: rest') ++ [x])
              = (p.2 - p.1) + durSumInner ((q :: rest') ++ [x]) := rfl
          rw [h2, ih]
          simp [durSum]

theorem durSum_reverse (l : List (Nat × Nat)) :
    durSum l.reverse = durSum l := by
  simp [durSum, List.map_reverse, List.sum_reverse]

/-- Running the opens of a recursion from a state whose registry holds exactly
the target anchor: each lookup finds id 0 and pushes it. -/
theorem run_opens_rec (A : String) (a : Anchor) (hA : (a.name == A) = true)
    (t0 : Nat) :
    ∀ (os : List Nat) (k : Nat) (bs : List Block),
      run (os.map (fun o => Event.openScope A o))
          ⟨⟨List.replicate k 0, [a], t0⟩, bs⟩
        = ⟨⟨List.replicate (k + os.length) 0, [a], t0⟩,
           (os.reverse.map (fun o => Block.mk 0 o)) ++ bs⟩ := by
  intro os
  induction os with
  | nil => intro k bs; simp
  | cons o rest ih =>
      intro k bs
      have hf : ([a].findIdx? (fun n => n.name == A)) = some 0 := by
        simp [hA]
      have hgai := @gai_found (⟨List.replicate k 0, [a], t0⟩ : Profiler) A 0 hf
      have hstep :
          step ⟨⟨List.replicate k 0, [a], t0⟩, bs⟩ (Event.openScope A o)
            = ⟨⟨List.replicate (k + 1) 0, [a], t0⟩, ⟨0, o⟩ :: bs⟩ := by
        simp only [step, hgai]
        simp [List.replicate_succ']
      rw [List.map_cons, run_cons, hstep, ih (k + 1) (⟨0, o⟩ :: bs)]
      simp [List.reverse_cons, List.append_assoc, Nat.add_comm,
        Nat.add_assoc, Nat.add_left_comm]

/-- The dedup loop is the identity when the block id is already in
`updated_children` and the whole remaining stack consists of that id. -/
theorem loop_replicate_mem (d : Nat) (anchors : List Anchor) (u : List Nat)
    (hu : 0 ∈ u) :
    ∀ k, updateChildrenLoop 0 d (List.replicate k 0) u anchors = anchors := by
  intro k
  induction k with
  | zero => rfl
  | succ j ih => simp [List.replicate_succ, updateChildrenLoop, hu, ih]

/-- The dedup loop over a stack of `k` copies of the block id charges the
anchor exactly once (when `k > 0`). -/
theorem loop_replicate_zero (d : Nat) (anchors : List Anchor) (j : Nat) :
    updateChildrenLoop 0 d (List.replicate (j + 1) 0) [] anchors
      = anchors.set 0 ((anchors.getD 0 default).update_from_self_child d) := by
  simp [List.replicate_succ, updateChildrenLoop,
    loop_replicate_mem d _ [0] (by simp)]

/-- Running the closes of a pure self-recursion: `pcs` pairs each open block
(innermost first, with its start time) with its close time.  Every level adds
its span to `elapsed` and bumps `calls`; every level but the outermost also
adds its span to `self_children_elapsed` (the dedup loop fires once). -/
theorem run_closes_rec (A : String) (t0 byt : Nat) :
    ∀ (pcs : List (Nat × Nat)) (n e sc : Nat),
      run (pcs.map (fun pc => Event.closeScope pc.2))
          ⟨⟨List.replicate pcs.length 0, [⟨A, n, e, 0, sc, byt⟩], t0⟩,
           pcs.map (fun pc => Block.mk 0 pc.1)⟩
        = ⟨⟨[], [⟨A, n + pcs.length, e + durSum pcs, 0,
             sc + durSumInner pcs, byt⟩], t0⟩, []⟩ := by
  intro pcs
  induction pcs with
  | nil => intro n e sc; simp [durSum, durSumInner]
  | cons pc rest ih =>
      intro n e sc
      rw [List.map_cons, List.map_cons, run_cons]
      have hdrop : ∀ m : Nat, (List.replicate (m + 1) 0).dropLast
          = List.replicate m 0 := by
        intro m
        rw [List.replicate_succ', List.dropLast_concat]
      have hstep :
          step ⟨⟨List.replicate (pc :: rest).length 0, [⟨A, n, e, 0, sc, byt⟩], t0⟩,
                Block.mk 0 pc.1 :: rest.map (fun pc => Block.mk 0 pc.1)⟩
              (Event.closeScope pc.2)
            = ⟨⟨List.replicate rest.length 0,
                 [⟨A, n + 1, e + (pc.2 - pc.1), 0,
                   sc + (if rest.length = 0 then 0 else pc.2 - pc.1), byt⟩], t0⟩,
               rest.map (fun pc => Block.mk 0 pc.1)⟩ := by
        cases rest with
        | nil =>
            simp [step, Profiler.add_block, Block.elapsed, Anchor.update,
              updateChildrenLoop, List.replicate]
        | cons q rest' =>
            simp only [step, Profiler.add_block, List.length_cons, Block.elapsed,
              hdrop, loop_replicate_zero]
            simp [Anchor.update, Anchor.update_from_self_child]
      rw [hstep]
      cases rest with
      | nil =>
          simp [durSum, durSumInner]
      | cons q rest' =>
          rw [ih]
          simp only [List.length_cons, durSum, durSumInner, List.map_cons,
            List.sum_cons, RunState.mk.injEq, Profiler.mk.injEq,
            List.cons.injEq, Anchor.mk.injEq, and_true, true_and]
          rw [if_neg (by omega : ¬(rest'.length + 1 = 0))]
          omega

/-- C1 amended: for a scope on anchor `A` that recursively re-enters `A`
(levels listed outermost first as properly nested (open, close) timestamp
pairs), after the outermost invocation finalizes the reported inclusive
(total) value equals the outermost wall span and `calls` has increased by the
number of levels — but the reported exclusive (self) value is the sum of the
FULL spans of all levels (the code never subtracts `self_children_elapsed`
from the self column), not the sum of the non-overlapping self-time slices. -/
theorem C1_amended (A : String) (t0 o₁ c₁ : Nat) (rest : List (Nat × Nat))
    (hnest : nestedChain ((o₁, c₁) :: rest) = true) :
    (run (recEvents A ((o₁, c₁) :: rest)) (RunState.new t0)).prof.anchors.length = 1 ∧
    ((run (recEvents A ((o₁, c₁) :: rest)) (RunState.new t0)).prof.anchors.getD 0
        default).calls = ((o₁, c₁) :: rest).length ∧
    reportedTotalRaw
        ((run (recEvents A ((o₁, c₁) :: rest)) (RunState.new t0)).prof.anchors.getD 0
          default) = c₁ - o₁ ∧
    reportedSelfRaw
        ((run (recEvents A ((o₁, c₁) :: rest)) (RunState.new t0)).prof.anchors.getD 0
          default) = durSum ((o₁, c₁) :: rest) := by
  have hrun :
      run (recEvents A ((o₁, c₁) :: rest)) (RunState.new t0)
        = ⟨⟨[], [⟨A, 0 + ((o₁, c₁) :: rest).reverse.length,
             0 + durSum ((o₁, c₁) :: rest).reverse, 0,
             0 + durSumInner ((o₁, c₁) :: rest).reverse, 0⟩], t0⟩, []⟩ := by
    rw [recEvents, run_append]
    have hg : (Profiler.new t0).get_anchor_id A
        = (0, ⟨[0], [Anchor.new A], t0⟩) := by
      rw [gai_none (by simp [Profiler.new])]
      simp [Profiler.new]
    have hfirst :
        step (RunState.new t0) (Event.openScope A o₁)
          = ⟨⟨List.replicate 1 0, [Anchor.new A], t0⟩, [⟨0, o₁⟩]⟩ := by
      show step ⟨Profiler.new t0, []⟩ _ = _
      simp [step, hg, List.replicate]
    have hopens :
        run (((o₁, c₁) :: rest).map (fun l => Event.openScope A l.1))
            (RunState.new t0)
          = ⟨⟨List.replicate (1 + rest.length) 0, [Anchor.new A], t0⟩,
             (((o₁, c₁) :: rest).reverse.map (fun pc => Block.mk 0 pc.1))⟩ := by
      rw [List.map_cons, run_cons, hfirst]
      have h2 := run_opens_rec A (Anchor.new A) (by simp [Anchor.new]) t0
        (rest.map (fun l => l.1)) 1 [⟨0, o₁⟩]
      simp only [List.map_map, List.length_map] at h2
      simp only [List.reverse_cons, List.map_append, List.map_cons, List.map_nil]
      have hcomp :
          (rest.map ((fun o => Event.openScope A o) ∘ fun l => l.1))
            = rest.map (fun l => Event.openScope A l.1) := rfl
      have hbl :
          ((rest.map (fun l => l.1)).reverse.map (fun o => Block.mk 0 o))
            = rest.reverse.map (fun pc => Block.mk 0 pc.1) := by
        simp [List.map_reverse, List.map_map]
      rw [hcomp, hbl] at h2
      rw [h2]
    rw [hopens]
    have hlen : (1 + rest.length) = ((o₁, c₁) :: rest).reverse.length := by
      simp [Nat.add_comm]
    rw [hlen]
    have hclose := run_closes_rec A t0 0 (((o₁, c₁) :: rest).reverse) 0 0 0
    simp only [Anchor.new]
    exact hclose
  rw [hrun]
  have hrev : ((o₁, c₁) :: rest).reverse = rest.reverse ++ [(o₁, c₁)] := by
    simp
  refine ⟨by simp, by simp, ?_, ?_⟩
  · simp only [reportedTotalRaw, List.getD_cons_zero, Nat.zero_add, hrev,
      durSumInner_concat, durSum_reverse]
    have : durSum (rest.reverse ++ [(o₁, c₁)]) = durSum rest + (c₁ - o₁) := by
      simp [durSum, List.map_reverse, List.sum_reverse]
    rw [this]
    omega
  · simp only [reportedSelfRaw, List.getD_cons_zero, Nat.zero_add, Nat.sub_zero,
      durSum_reverse]

/-- C1 counterexample: recursion to depth 2, outer scope spanning 0..10 ns,
inner spanning 2..8 ns.  The sum of the non-overlapping self-time slices (the
property's claim for the exclusive column) is (10 - 6) + 6 = 10 ns, but the
reported exclusive value is 10 + 6 = 16 ns. -/
theorem C1_cex :
    reportedSelfRaw
        ((run (recEvents "a" [(0, 10), (2, 8)]) (RunState.new 0)).prof.anchors.getD 0
          default)
      ≠ specSelfSliceSum [(0, 10), (2, 8)] := by
  decide

/-- C1 witness: the amended recursion property at depth 2 (outer 0..10,
inner 2..8): one anchor, 2 calls, reported inclusive 10 = the outermost span,
reported exclusive 16 = the sum of both spans. -/
theorem C1_witness :
    nestedChain [(0, 10), (2, 8)] = true ∧
    ((run (recEvents "a" [(0, 10), (2, 8)]) (RunState.new 0)).prof.anchors.length = 1 ∧
     ((run (recEvents "a" [(0, 10), (2, 8)]) (RunState.new 0)).prof.anchors.getD 0
        default).calls = ([((0 : Nat), (10 : Nat)), (2, 8)]).length ∧
     reportedTotalRaw
        ((run (recEvents "a" [(0, 10), (2, 8)]) (RunState.new 0)).prof.anchors.getD 0
          default) = 10 - 0 ∧
     reportedSelfRaw
        ((run (recEvents "a" [(0, 10), (2, 8)]) (RunState.new 0)).prof.anchors.getD 0
          default) = durSum [(0, 10), (2, 8)]) :=
  ⟨by decide, C1_amended "a" 0 0 10 [(2, 8)] (by decide)⟩

/-! ### Invariants of reachable runs (C2, C3) -/


theorem topContribution_nil (t : Nat) : topContribution [] t = 0 := rfl

theorem topContribution_one (b : Block) (t : Nat) :
    topContribution [b] t = b.elapsed t := rfl

theorem topContribution_more (b b₂ : Block) (r : List Block) (t : Nat) :
    topContribution (b :: b₂ :: r) t = 0 := rfl


/-! ### List helper lemmas -/

theorem map_set_invariant {β : Type} (f : Anchor → β) :
    ∀ (l : List Anchor) (i : Nat) (x : Anchor),
      f x = f (l.getD i default) → (l.set i x).map f = l.map f := by
  intro l
  induction l with
  | nil => intro i x h; rfl
  | cons a t ih =>
      intro i x h
      cases i with
      | zero =>
          simp only [List.getD_cons_zero] at h
          simp [List.set_cons_zero, h]
      | succ j =>
          simp only [List.getD_cons_succ] at h
          simp [List.set_cons_succ, ih j x h]

theorem sum_map_set (f : Anchor → Nat) :
    ∀ (l : List Anchor) (i : Nat) (x : Anchor), i < l.length →
      ((l.set i x).map f).sum + f (l.getD i default)
        = (l.map f).sum + f x := by
  intro l
  induction l with
  | nil => intro i x h; exact absurd h (Nat.not_lt_zero i)
  | cons a t ih =>
      intro i x h
      cases i with
      | zero =>
          simp only [List.set_cons_zero, List.map_cons, List.sum_cons,
            List.getD_cons_zero]
          omega
      | succ j =>
          have hj : j < t.length := by simpa using h
          have hrec := ih j x hj
          simp only [List.set_cons_succ, List.map_cons, List.sum_cons,
            List.getD_cons_succ]
          omega

/-! ### Facts about the dedup loop -/

theorem loop_map_eq {β : Type} (f : Anchor → β)
    (hc : ∀ (a : Anchor) (d : Nat), f (a.update_from_child d) = f a)
    (hsc : ∀ (a : Anchor) (d : Nat), f (a.update_from_self_child d) = f a)
    (blockId duration : Nat) :
    ∀ (stack updated : List Nat) (anchors : List Anchor),
      (updateChildrenLoop blockId duration stack updated anchors).map f
        = anchors.map f := by
  intro stack
  induction stack with
  | nil => intro u anchors; rfl
  | cons a rest ih =>
      intro u anchors
      simp only [updateChildrenLoop]
      by_cases hm : a ∈ u
      · rw [if_pos hm]
        exact ih u anchors
      · rw [if_neg hm]
        by_cases hb : a = blockId
        · rw [if_pos hb, ih]
          exact map_set_invariant f anchors a _ (hsc _ _)
        · rw [if_neg hb, ih]
          exact map_set_invariant f anchors a _ (hc _ _)

theorem loop_length (blockId duration : Nat) (stack updated : List Nat)
    (anchors : List Anchor) :
    (updateChildrenLoop blockId duration stack updated anchors).length
      = anchors.length := by
  have h := loop_map_eq Anchor.name (fun _ _ => rfl) (fun _ _ => rfl)
    blockId duration stack updated anchors
  have h2 := congrArg List.length h
  simpa using h2

/-- When the finished block's anchor id is not on the remaining stack, the
dedup loop never touches `self_children_elapsed`. -/
theorem loop_sc_eq (blockId duration : Nat) :
    ∀ (stack updated : List Nat) (anchors : List Anchor),
      blockId ∉ stack →
      (updateChildrenLoop blockId duration stack updated anchors).map
          Anchor.self_children_elapsed
        = anchors.map Anchor.self_children_elapsed := by
  intro stack
  induction stack with
  | nil => intro u anchors _; rfl
  | cons a rest ih =>
      intro u anchors hmem
      have ha : a ≠ blockId := fun h => hmem (h ▸ List.mem_cons_self a rest)
      have hrest : blockId ∉ rest := fun h => hmem (List.mem_cons_of_mem a h)
      simp only [updateChildrenLoop]
      by_cases hm : a ∈ u
      · rw [if_pos hm]
        exact ih u anchors hrest
      · rw [if_neg hm, if_neg ha, ih _ _ hrest]
        exact map_set_invariant _ anchors a _ rfl

theorem loop_singleton (blockId d a : Nat) (anchors : List Anchor)
    (hab : a ≠ blockId) :
    updateChildrenLoop blockId d [a] [] anchors
      = anchors.set a ((anchors.getD a default).update_from_child d) := by
  simp [updateChildrenLoop, hab]

/-! ### Facts about `get_anchor_id` and `add_block` -/

theorem gai_id_lt (p : Profiler) (name : String) :
    (p.get_anchor_id name).1 < ((p.get_anchor_id name).2).anchors.length := by
  cases h : p.anchors.findIdx? (fun n => n.name == name) with
  | none => rw [gai_none h]; simp
  | some i =>
      rw [gai_found h]
      exact (List.findIdx?_eq_some_iff_findIdx_eq.mp h).1

theorem gai_anchors_cases (p : Profiler) (name : String) :
    ((p.get_anchor_id name).2).anchors = p.anchors
    ∨ ((p.get_anchor_id name).2).anchors = p.anchors ++ [Anchor.new name] := by
  cases h : p.anchors.findIdx? (fun n => n.name == name) with
  | none => rw [gai_none h]; right; rfl
  | some i => rw [gai_found h]; left; rfl

theorem gai_len_le (p : Profiler) (name : String) :
    p.anchors.length ≤ ((p.get_anchor_id name).2).anchors.length := by
  rcases gai_anchors_cases p name with h | h <;> simp [h]

theorem ab_len (p : Profiler) (b : Block) (now : Nat) :
    (p.add_block b now).anchors.length = p.anchors.length := by
  simp [Profiler.add_block, loop_length]

/-! ### Preservation of `StackOk` -/

theorem stackOk_new (t0 : Nat) : StackOk (RunState.new t0) := by
  refine ⟨rfl, List.nodup_nil, ?_⟩
  intro i hi
  simp [RunState.new, Profiler.new] at hi

theorem stackOk_step_open (s : RunState) (name : String) (t : Nat)
    (hs : StackOk s)
    (hnr : (s.prof.get_anchor_id name).1 ∉ s.prof.anchor_id_stack) :
    StackOk (step s (Event.openScope name t)) := by
  obtain ⟨hcor, hnd, hbnd⟩ := hs
  refine ⟨?_, ?_, ?_⟩
  · show ((s.prof.get_anchor_id name).2).anchor_id_stack
        = ((Block.mk (s.prof.get_anchor_id name).1 t :: s.blocks).map
            Block.anchor_id).reverse
    rw [gai_stack, hcor]
    simp
  · show ((s.prof.get_anchor_id name).2).anchor_id_stack.Nodup
    rw [gai_stack]
    refine List.nodup_append.mpr ⟨hnd, List.nodup_singleton _, ?_⟩
    intro a ha hb
    have hab : a = (s.prof.get_anchor_id name).1 := by simpa using hb
    exact hnr (hab ▸ ha)
  · intro i hi
    have hi' : i ∈ s.prof.anchor_id_stack ++ [(s.prof.get_anchor_id name).1] := by
      rw [← gai_stack]
      exact hi
    show i < ((s.prof.get_anchor_id name).2).anchors.length
    rcases List.mem_append.mp hi' with h | h
    · exact lt_of_lt_of_le (hbnd i h) (gai_len_le ..)
    · have hieq : i = (s.prof.get_anchor_id name).1 := by simpa using h
      rw [hieq]
      exact gai_id_lt ..

/-- Closing a scope preserves `StackOk` and, thanks to the no-duplicates
invariant, never touches any `self_children_elapsed` counter. -/
theorem stackOk_step_close (s : RunState) (t : Nat) (hs : StackOk s) :
    StackOk (step s (Event.closeScope t))
    ∧ (step s (Event.closeScope t)).prof.anchors.map Anchor.self_children_elapsed
        = s.prof.anchors.map Anchor.self_children_elapsed := by
  obtain ⟨hcor, hnd, hbnd⟩ := hs
  cases hb : s.blocks with
  | nil =>
      have : step s (Event.closeScope t) = s := by
        simp [step, hb]
      rw [this]
      exact ⟨⟨hcor, hnd, hbnd⟩, rfl⟩
  | cons b rest =>
      have hstack : s.prof.anchor_id_stack
          = (rest.map Block.anchor_id).reverse ++ [b.anchor_id] := by
        rw [hcor, hb]
        simp
      have hdrop : s.prof.anchor_id_stack.dropLast
          = (rest.map Block.anchor_id).reverse := by
        rw [hstack, List.dropLast_concat]
      have hbnotin : b.anchor_id ∉ (rest.map Block.anchor_id).reverse := by
        have h2 := hnd
        rw [hstack] at h2
        rcases List.nodup_append.mp h2 with ⟨-, -, hdisj⟩
        intro hmem
        exact hdisj hmem (by simp)
      have hstep : step s (Event.closeScope t)
          = ⟨s.prof.add_block b t, rest⟩ := by
        simp [step, hb]
      rw [hstep]
      refine ⟨⟨?_, ?_, ?_⟩, ?_⟩
      · show (s.prof.add_block b t).anchor_id_stack = _
        show s.prof.anchor_id_stack.dropLast = _
        rw [hdrop]
      · show s.prof.anchor_id_stack.dropLast.Nodup
        rw [hdrop]
        rw [hstack] at hnd
        exact (List.nodup_append.mp hnd).1
      · intro i hi
        show i < (s.prof.add_block b t).anchors.length
        rw [ab_len]
        refine hbnd i ?_
        have hi' : i ∈ s.prof.anchor_id_stack.dropLast := hi
        rw [hdrop] at hi'
        rw [hstack]
        exact List.mem_append.mpr (Or.inl hi')
      · show (s.prof.add_block b t).anchors.map Anchor.self_children_elapsed = _
        show (updateChildrenLoop b.anchor_id (b.elapsed t)
            s.prof.anchor_id_stack.dropLast []
            (s.prof.anchors.set b.anchor_id
              ((s.prof.anchors.getD b.anchor_id default).update (b.elapsed t)))).map
            Anchor.self_children_elapsed = _
        rw [loop_sc_eq _ _ _ _ _ (by rw [hdrop]; exact hbnotin)]
        exact map_set_invariant _ _ _ _ rfl

theorem allzero_of_map_eq {l l' : List Anchor}
    (h : l'.map Anchor.self_children_elapsed = l.map Anchor.self_children_elapsed)
    (hz : ∀ a ∈ l, a.self_children_elapsed = 0) :
    ∀ a ∈ l', a.self_children_elapsed = 0 := by
  intro a ha
  have hmem : a.self_children_elapsed
      ∈ l'.map Anchor.self_children_elapsed := List.mem_map_of_mem _ ha
  rw [h] at hmem
  obtain ⟨b, hb, he⟩ := List.mem_map.mp hmem
  rw [← he]
  exact hz b hb

/-- Master invariant of no-re-entry runs: `StackOk` is preserved and every
`self_children_elapsed` counter stays zero. -/
theorem runNR_inv (es : List Event) : ∀ (s : RunState),
    okNR es s = true → StackOk s →
    (∀ a ∈ s.prof.anchors, a.self_children_elapsed = 0) →
    StackOk (run es s)
    ∧ ∀ a ∈ (run es s).prof.anchors, a.self_children_elapsed = 0 := by
  induction es with
  | nil => intro s _ hs hz; exact ⟨hs, hz⟩
  | cons e es ih =>
      intro s h hs hz
      cases e with
      | openScope name t =>
          rw [okNR] at h
          by_cases hm : (s.prof.get_anchor_id name).1 ∈ s.prof.anchor_id_stack
          · rw [if_pos hm] at h
            exact absurd h (by simp)
          · rw [if_neg hm] at h
            have hs' := stackOk_step_open s name t hs hm
            have hz' : ∀ a ∈ (step s (Event.openScope name t)).prof.anchors,
                a.self_children_elapsed = 0 := by
              have hcases := gai_anchors_cases s.prof name
              show ∀ a ∈ ((s.prof.get_anchor_id name).2).anchors, _
              rcases hcases with hsame | happ
              · rw [hsame]; exact hz
              · rw [happ]
                intro a ha
                rcases List.mem_append.mp ha with h1 | h1
                · exact hz a h1
                · have : a = Anchor.new name := by simpa using h1
                  rw [this]
                  rfl
            exact ih _ h hs' hz'
      | closeScope t =>
          rw [okNR] at h
          obtain ⟨hs', hmap⟩ := stackOk_step_close s t hs
          exact ih _ h hs' (allzero_of_map_eq hmap hz)

/-- C2 amended: after any properly nested single-thread run in which no scope
recursively re-enters an anchor that is already open, every anchor with
`calls > 0` reports exclusive (self) time at most its inclusive (total) time:
`elapsed - children_elapsed ≤ elapsed - self_children_elapsed` (all
`self_children_elapsed` stay 0 on such runs).  The hypothesis that no
`children_elapsed` exceeds its `elapsed` keeps the `Nat` model of the left
subtraction aligned with the `u64` one (the code's subtraction would
wrap/panic where that fails).  Recursive re-entry breaks the original
invariant, see the counterexample. -/
theorem C2_amended (es : List Event) (t0 : Nat)
    (hok : okNR es (RunState.new t0) = true)
    (hsub : ∀ a ∈ (run es (RunState.new t0)).prof.anchors,
      a.children_elapsed ≤ a.elapsed) :
    ∀ a ∈ (run es (RunState.new t0)).prof.anchors,
      0 < a.calls → reportedSelfRaw a ≤ reportedTotalRaw a := by
  have h := runNR_inv es (RunState.new t0) hok (stackOk_new t0)
    (by intro a ha; simp [RunState.new, Profiler.new] at ha)
  intro a ha _
  have hsc := h.2 a ha
  rw [reportedSelfRaw, reportedTotalRaw, hsc, Nat.sub_zero]
  exact Nat.sub_le _ _

/-- C2 witness: the amended invariant on a two-level non-recursive run
(anchor `a` spanning 0..10 containing anchor `b` spanning 2..8). -/
theorem C2_witness :
    okNR [Event.openScope "a" 0, Event.openScope "b" 2,
          Event.closeScope 8, Event.closeScope 10] (RunState.new 0) = true ∧
    reportedSelfRaw
        ((run [Event.openScope "a" 0, Event.openScope "b" 2,
               Event.closeScope 8, Event.closeScope 10]
           (RunState.new 0)).prof.anchors.getD 0 default)
      ≤ reportedTotalRaw
        ((run [Event.openScope "a" 0, Event.openScope "b" 2,
               Event.closeScope 8, Event.closeScope 10]
           (RunState.new 0)).prof.anchors.getD 0 default) :=
  ⟨by decide,
   C2_amended [Event.openScope "a" 0, Event.openScope "b" 2,
     Event.closeScope 8, Event.closeScope 10] 0 (by decide) (by decide)
     _ (by decide) (by decide)⟩

/-! ### Sum accounting (C3) -/

theorem SE_set_update (l : List Anchor) (i d : Nat) (hlt : i < l.length) :
    ((l.set i ((l.getD i default).update d)).map Anchor.elapsed).sum
      = (l.map Anchor.elapsed).sum + d := by
  have h1 := sum_map_set Anchor.elapsed l i ((l.getD i default).update d) hlt
  have h2 : Anchor.elapsed ((l.getD i default).update d)
      = (l.getD i default).elapsed + d := rfl
  omega

theorem SC_set_update (l : List Anchor) (i d : Nat) :
    ((l.set i ((l.getD i default).update d)).map Anchor.children_elapsed).sum
      = (l.map Anchor.children_elapsed).sum :=
  congrArg List.sum
    (map_set_invariant Anchor.children_elapsed l i ((l.getD i default).update d) rfl)

theorem SE_set_child (l : List Anchor) (i d : Nat) :
    ((l.set i ((l.getD i default).update_from_child d)).map Anchor.elapsed).sum
      = (l.map Anchor.elapsed).sum :=
  congrArg List.sum
    (map_set_invariant Anchor.elapsed l i
      ((l.getD i default).update_from_child d) rfl)

theorem SC_set_child (l : List Anchor) (i d : Nat) (hlt : i < l.length) :
    ((l.set i ((l.getD i default).update_from_child d)).map
        Anchor.children_elapsed).sum
      = (l.map Anchor.children_elapsed).sum + d := by
  have h1 := sum_map_set Anchor.children_elapsed l i
    ((l.getD i default).update_from_child d) hlt
  have h2 : Anchor.children_elapsed ((l.getD i default).update_from_child d)
      = (l.getD i default).children_elapsed + d := rfl
  omega

theorem gai_SE_SC (p : Profiler) (name : String) :
    SE ((p.get_anchor_id name).2) = SE p ∧ SC ((p.get_anchor_id name).2) = SC p := by
  rcases gai_anchors_cases p name with h | h <;>
    simp [SE, SC, h, Anchor.new]

/-- Closing the only open scope: its full duration lands in `elapsed`, the
dedup loop is empty, `children_elapsed` sums are untouched. -/
theorem close_SE_SC_one (s : RunState) (t : Nat) (b : Block)
    (hb : s.blocks = [b]) (hs : StackOk s) :
    SE (step s (Event.closeScope t)).prof = SE s.prof + b.elapsed t
    ∧ SC (step s (Event.closeScope t)).prof = SC s.prof := by
  obtain ⟨hcor, hnd, hbnd⟩ := hs
  have hstack : s.prof.anchor_id_stack = [b.anchor_id] := by
    rw [hcor, hb]; rfl
  have hlt : b.anchor_id < s.prof.anchors.length :=
    hbnd _ (by rw [hstack]; simp)
  have hstep : step s (Event.closeScope t) = ⟨s.prof.add_block b t, []⟩ := by
    simp [step, hb]
  have hab : s.prof.add_block b t
      = ⟨[], s.prof.anchors.set b.anchor_id
          ((s.prof.anchors.getD b.anchor_id default).update (b.elapsed t)),
         s.prof.start⟩ := by
    show (⟨s.prof.anchor_id_stack.dropLast,
        updateChildrenLoop b.anchor_id (b.elapsed t)
          s.prof.anchor_id_stack.dropLast []
          (s.prof.anchors.set b.anchor_id
            ((s.prof.anchors.getD b.anchor_id default).update (b.elapsed t))),
        s.prof.start⟩ : Profiler) = _
    rw [hstack]
    rfl
  rw [hstep, hab]
  exact ⟨SE_set_update _ _ _ hlt, SC_set_update _ _ _⟩

/-- Closing the inner of two nested scopes: its duration lands both in its
anchor's `elapsed` and in the parent's `children_elapsed`. -/
theorem close_SE_SC_two (s : RunState) (t : Nat) (b b₂ : Block)
    (hb : s.blocks = [b, b₂]) (hs : StackOk s) :
    SE (step s (Event.closeScope t)).prof = SE s.prof + b.elapsed t
    ∧ SC (step s (Event.closeScope t)).prof = SC s.prof + b.elapsed t := by
  obtain ⟨hcor, hnd, hbnd⟩ := hs
  have hstack : s.prof.anchor_id_stack = [b₂.anchor_id, b.anchor_id] := by
    rw [hcor, hb]; rfl
  have hlt : b.anchor_id < s.prof.anchors.length :=
    hbnd _ (by rw [hstack]; simp)
  have hlt2 : b₂.anchor_id < s.prof.anchors.length :=
    hbnd _ (by rw [hstack]; simp)
  have hne : b₂.anchor_id ≠ b.anchor_id := by
    rw [hstack] at hnd
    have := List.nodup_cons.mp hnd
    simpa using this.1
  have hstep : step s (Event.closeScope t) = ⟨s.prof.add_block b t, [b₂]⟩ := by
    simp [step, hb]
  have hdrop : s.prof.anchor_id_stack.dropLast = [b₂.anchor_id] := by
    rw [hstack]
    rfl
  have hab : s.prof.add_block b t
      = ⟨[b₂.anchor_id],
         (s.prof.anchors.set b.anchor_id
            ((s.prof.anchors.getD b.anchor_id default).update (b.elapsed t))).set
            b₂.anchor_id
            (((s.prof.anchors.set b.anchor_id
                ((s.prof.anchors.getD b.anchor_id default).update
                  (b.elapsed t))).getD b₂.anchor_id default).update_from_child
              (b.elapsed t)),
         s.prof.start⟩ := by
    show (⟨s.prof.anchor_id_stack.dropLast,
        updateChildrenLoop b.anchor_id (b.elapsed t)
          s.prof.anchor_id_stack.dropLast []
          (s.prof.anchors.set b.anchor_id
            ((s.prof.anchors.getD b.anchor_id default).update (b.elapsed t))),
        s.prof.start⟩ : Profiler) = _
    rw [hdrop, loop_singleton _ _ _ _ hne]
  rw [hstep, hab]
  constructor
  · show ((_ : List Anchor).map Anchor.elapsed).sum = _
    rw [SE_set_child]
    exact SE_set_update _ _ _ hlt
  · show ((_ : List Anchor).map Anchor.children_elapsed).sum = _
    rw [SC_set_child _ _ _ (by rw [List.length_set]; exact hlt2)]
    rw [SC_set_update]
    rfl

/-- Master accounting for depth-at-most-one, no-re-entry runs: the sums of
`elapsed` and `children_elapsed` differ exactly by the accumulated top-level
scope time. -/
theorem runFlat_account (es : List Event) : ∀ (s : RunState),
    okFlat es s = true → StackOk s → s.blocks.length ≤ 2 →
    StackOk (run es s) ∧ (run es s).blocks.length ≤ 2
    ∧ SE (run es s).prof + SC s.prof
        = SC (run es s).prof + SE s.prof + topTime es s := by
  induction es with
  | nil =>
      intro s _ hs hl
      refine ⟨hs, hl, ?_⟩
      simp only [run_nil, topTime]
      omega
  | cons e es ih =>
      intro s h hs hl
      cases e with
      | openScope name t =>
          rw [okFlat] at h
          by_cases h1 : 1 < s.blocks.length
          · rw [if_pos h1] at h
            exact absurd h (by simp)
          · rw [if_neg h1] at h
            by_cases h2 : (s.prof.get_anchor_id name).1 ∈ s.prof.anchor_id_stack
            · rw [if_pos h2] at h
              exact absurd h (by simp)
            · rw [if_neg h2] at h
              have hs' := stackOk_step_open s name t hs h2
              have hl' : (step s (Event.openScope name t)).blocks.length ≤ 2 := by
                show (Block.mk (s.prof.get_anchor_id name).1 t
                    :: s.blocks).length ≤ 2
                rw [List.length_cons]
                omega
              obtain ⟨ha, hb, hc⟩ := ih _ h hs' hl'
              refine ⟨ha, hb, ?_⟩
              have hse : SE (step s (Event.openScope name t)).prof = SE s.prof :=
                (gai_SE_SC s.prof name).1
              have hscq : SC (step s (Event.openScope name t)).prof = SC s.prof :=
                (gai_SE_SC s.prof name).2
              rw [run_cons, topTime]
              omega
      | closeScope t =>
          rw [okFlat] at h
          obtain ⟨hsclose, -⟩ := stackOk_step_close s t hs
          cases hb : s.blocks with
          | nil =>
              have hstep : step s (Event.closeScope t) = s := by
                simp [step, hb]
              have hl' : (step s (Event.closeScope t)).blocks.length ≤ 2 := by
                rw [hstep]; exact hl
              obtain ⟨ha, hbl, hc⟩ := ih _ h hsclose hl'
              refine ⟨ha, hbl, ?_⟩
              rw [run_cons, topTime, hb, topContribution_nil]
              simp only [hstep] at hc ⊢
              omega
          | cons b rest =>
              have hlr : rest.length ≤ 1 := by
                rw [hb] at hl
                simp at hl
                omega
              have hstep : step s (Event.closeScope t) = ⟨s.prof.add_block b t, rest⟩ := by
                simp [step, hb]
              have hl' : (step s (Event.closeScope t)).blocks.length ≤ 2 := by
                rw [hstep]
                show rest.length ≤ 2
                omega
              obtain ⟨ha, hbl, hc⟩ := ih _ h hsclose hl'
              refine ⟨ha, hbl, ?_⟩
              rw [run_cons, topTime, hb]
              cases rest with
              | nil =>
                  rw [topContribution_one]
                  obtain ⟨hSE, hSC⟩ := close_SE_SC_one s t b hb hs
                  omega
              | cons b₂ rest2 =>
                  have hr2 : rest2 = [] := by
                    rw [List.length_cons] at hlr
                    exact List.eq_nil_of_length_eq_zero (by omega)
                  subst hr2
                  rw [topContribution_more]
                  obtain ⟨hSE, hSC⟩ := close_SE_SC_two s t b b₂ hb hs
                  omega

theorem sum_sub_of_le (l : List Anchor)
    (h : ∀ a ∈ l, a.children_elapsed ≤ a.elapsed) :
    (l.map reportedSelfRaw).sum + (l.map Anchor.children_elapsed).sum
      = (l.map Anchor.elapsed).sum := by
  induction l with
  | nil => rfl
  | cons a t ih =>
      have ha := h a (List.mem_cons_self a t)
      have ht := ih (fun b hb => h b (List.mem_cons_of_mem a hb))
      simp only [List.map_cons, List.sum_cons, reportedSelfRaw] at ht ⊢
      omega

/-- C3 amended: for properly nested single-thread runs in which no scope
recursively re-enters an open anchor and nesting is at most one level deep,
the reported exclusive (self) times sum to the total duration of the
top-level scopes — the instrumented portion of the session — NOT to the
session elapsed time: time outside any scope is charged to no anchor (there
is no root anchor), so the sum falls short of the session span by exactly the
uninstrumented time.  (Deeper nesting breaks even this: the code charges
every ancestor, not just the parent, for each closing scope.)  The
no-underflow hypothesis keeps the `Nat` subtractions of the self column
aligned with the `u64` ones. -/
theorem C3_amended (es : List Event) (t0 : Nat)
    (hok : okFlat es (RunState.new t0) = true)
    (hsub : ∀ a ∈ (run es (RunState.new t0)).prof.anchors,
      a.children_elapsed ≤ a.elapsed) :
    ((run es (RunState.new t0)).prof.anchors.map reportedSelfRaw).sum
      = topTime es (RunState.new t0) := by
  obtain ⟨-, -, hacc⟩ := runFlat_account es (RunState.new t0) hok (stackOk_new t0)
    (by show (0 : Nat) ≤ 2; omega)
  have hs := sum_sub_of_le _ hsub
  have h0 : SE (RunState.new t0).prof = 0 := rfl
  have h0' : SC (RunState.new t0).prof = 0 := rfl
  simp only [SE, SC] at hacc h0 h0'
  omega

/-- C3 witness: the amended accounting on a run with one top-level scope
(1..2), then a top-level scope (3..9) containing one child (4..6): the
reported self times sum to (2-1) + ((9-3)-(6-4)) + (6-4) = 7 = the covered
top-level time, while the session lasts longer. -/
theorem C3_witness :
    okFlat [Event.openScope "a" 1, Event.closeScope 2, Event.openScope "b" 3,
            Event.openScope "c" 4, Event.closeScope 6, Event.closeScope 9]
        (RunState.new 0) = true ∧
    ((run [Event.openScope "a" 1, Event.closeScope 2, Event.openScope "b" 3,
           Event.openScope "c" 4, Event.closeScope 6, Event.closeScope 9]
        (RunState.new 0)).prof.anchors.map reportedSelfRaw).sum
      = topTime [Event.openScope "a" 1, Event.closeScope 2, Event.openScope "b" 3,
                 Event.openScope "c" 4, Event.closeScope 6, Event.closeScope 9]
          (RunState.new 0) :=
  ⟨by decide,
   C3_amended [Event.openScope "a" 1, Event.closeScope 2, Event.openScope "b" 3,
     Event.openScope "c" 4, Event.closeScope 6, Event.closeScope 9] 0
     (by decide) (by decide)⟩

/-! ### The dedup loop charges each distinct ancestor once (C10) -/

theorem getD_set_self :
    ∀ (l : List Anchor) (i : Nat) (x : Anchor), i < l.length →
      (l.set i x).getD i default = x := by
  intro l
  induction l with
  | nil => intro i x h; exact absurd h (Nat.not_lt_zero i)
  | cons a t ih =>
      intro i x h
      cases i with
      | zero => rfl
      | succ j => exact ih j x (by simpa using h)

theorem getD_set_other :
    ∀ (l : List Anchor) (i j : Nat) (x : Anchor), j ≠ i →
      (l.set i x).getD j default = l.getD j default := by
  intro l
  induction l with
  | nil => intro i j x _; rfl
  | cons a t ih =>
      intro i j x hne
      cases i with
      | zero =>
          cases j with
          | zero => exact absurd rfl hne
          | succ k => rfl
      | succ i' =>
          cases j with
          | zero => rfl
          | succ k =>
              simp only [List.set_cons_succ, List.getD_cons_succ]
              exact ih i' k x (fun h => hne (by rw [h]))

theorem set_oob (l : List Anchor) (i : Nat) (x : Anchor)
    (h : l.length ≤ i) : l.set i x = l := by
  induction l generalizing i with
  | nil => rfl
  | cons a t ih =>
      cases i with
      | zero => exact absurd h (by simp)
      | succ j => simp only [List.set_cons_succ]; rw [ih j (by simpa using h)]

/-- Per-index characterisation of the dedup loop: an id is charged once
exactly when it occurs on the (remaining) stack and is not already in the
`updated_children` list — no matter how many times it occurs. -/
theorem loop_spec (blockId d : Nat) :
    ∀ (stack updated : List Nat) (anchors : List Anchor),
      (∀ i ∈ stack, i < anchors.length) →
      ∀ j,
        (updateChildrenLoop blockId d stack updated anchors).getD j default
          = if j ∈ stack ∧ j ∉ updated then
              (if j = blockId then
                (anchors.getD j default).update_from_self_child d
               else (anchors.getD j default).update_from_child d)
            else anchors.getD j default := by
  intro stack
  induction stack with
  | nil =>
      intro u anchors _ j
      simp [updateChildrenLoop]
  | cons a rest ih =>
      intro u anchors hbnd j
      have hrest : ∀ i ∈ rest, i < anchors.length :=
        fun i hi => hbnd i (List.mem_cons_of_mem a hi)
      have halt : a < anchors.length := hbnd a (List.mem_cons_self a rest)
      simp only [updateChildrenLoop]
      by_cases hm : a ∈ u
      · rw [if_pos hm, ih u anchors hrest j]
        refine if_congr ?_ rfl rfl
        constructor
        · rintro ⟨h1, h2⟩
          exact ⟨List.mem_cons_of_mem a h1, h2⟩
        · rintro ⟨h1, h2⟩
          rcases List.mem_cons.mp h1 with h | h
          · exact absurd (h ▸ hm) h2
          · exact ⟨h, h2⟩
      · rw [if_neg hm]
        have hlen' : ∀ b : Anchor,
            ∀ i ∈ rest, i < (anchors.set a b).length := by
          intro b i hi
          rw [List.length_set]
          exact hrest i hi
        by_cases hab : a = blockId
        · rw [if_pos hab, ih _ _ (hlen' _) j]
          by_cases hj : j = a
          · subst hj
            rw [if_neg (by
              rintro ⟨-, hnm⟩
              exact hnm (List.mem_append.mpr (Or.inr (by simp))))]
            rw [getD_set_self _ _ _ halt,
              if_pos ⟨List.mem_cons_self _ _, hm⟩, if_pos hab]
          · rw [getD_set_other _ _ _ _ hj]
            refine if_congr ?_ rfl rfl
            simp only [List.mem_cons, List.mem_append, List.mem_singleton, hj]
            tauto
        · rw [if_neg hab, ih _ _ (hlen' _) j]
          by_cases hj : j = a
          · subst hj
            rw [if_neg (by
              rintro ⟨-, hnm⟩
              exact hnm (List.mem_append.mpr (Or.inr (by simp))))]
            rw [getD_set_self _ _ _ halt,
              if_pos ⟨List.mem_cons_self _ _, hm⟩, if_neg hab]
          · rw [getD_set_other _ _ _ _ hj]
            refine if_congr ?_ rfl rfl
            simp only [List.mem_cons, List.mem_append, List.mem_singleton, hj]
            tauto

/-- C10: during one `add_block`, each distinct anchor id on the remaining
stack receives exactly one charge of the block duration — `children_elapsed`
grows by the duration once for every distinct ancestor id other than the
closing block's own id, `self_children_elapsed` once when the id equals it —
regardless of how many times the id occurs on the stack. -/
theorem C10_dedup_charge (p : Profiler) (b : Block) (now : Nat)
    (hs : ∀ i ∈ p.anchor_id_stack.dropLast, i < p.anchors.length) (j : Nat) :
    (((p.add_block b now).anchors.getD j default).children_elapsed
      = (p.anchors.getD j default).children_elapsed
          + (if j ∈ p.anchor_id_stack.dropLast ∧ j ≠ b.anchor_id
             then b.elapsed now else 0))
    ∧ (((p.add_block b now).anchors.getD j default).self_children_elapsed
      = (p.anchors.getD j default).self_children_elapsed
          + (if j ∈ p.anchor_id_stack.dropLast ∧ j = b.anchor_id
             then b.elapsed now else 0)) := by
  have hlen0 : ∀ i ∈ p.anchor_id_stack.dropLast,
      i < (p.anchors.set b.anchor_id
        ((p.anchors.getD b.anchor_id default).update (b.elapsed now))).length := by
    intro i hi
    rw [List.length_set]
    exact hs i hi
  have hloop := loop_spec b.anchor_id (b.elapsed now)
    p.anchor_id_stack.dropLast []
    (p.anchors.set b.anchor_id
      ((p.anchors.getD b.anchor_id default).update (b.elapsed now)))
    hlen0 j
  have habl : (p.add_block b now).anchors
      = updateChildrenLoop b.anchor_id (b.elapsed now)
          p.anchor_id_stack.dropLast []
          (p.anchors.set b.anchor_id
            ((p.anchors.getD b.anchor_id default).update (b.elapsed now))) := rfl
  have hch0 : ((p.anchors.set b.anchor_id
      ((p.anchors.getD b.anchor_id default).update (b.elapsed now))).getD j
        default).children_elapsed
      = (p.anchors.getD j default).children_elapsed := by
    by_cases hj : j = b.anchor_id
    · by_cases hlt : b.anchor_id < p.anchors.length
      · rw [hj, getD_set_self _ _ _ hlt]
        rfl
      · rw [set_oob _ _ _ (by omega)]
    · rw [getD_set_other _ _ _ _ hj]
  have hsc0 : ((p.anchors.set b.anchor_id
      ((p.anchors.getD b.anchor_id default).update (b.elapsed now))).getD j
        default).self_children_elapsed
      = (p.anchors.getD j default).self_children_elapsed := by
    by_cases hj : j = b.anchor_id
    · by_cases hlt : b.anchor_id < p.anchors.length
      · rw [hj, getD_set_self _ _ _ hlt]
        rfl
      · rw [set_oob _ _ _ (by omega)]
    · rw [getD_set_other _ _ _ _ hj]
  rw [habl, hloop]
  by_cases hmem : j ∈ p.anchor_id_stack.dropLast
  · by_cases hj : j = b.anchor_id
    · rw [if_pos ⟨hmem, by simp⟩, if_pos hj,
        if_neg (fun h => h.2 hj), if_pos ⟨hmem, hj⟩]
      constructor
      · show ((_ : Anchor)).children_elapsed + 0 = _
        rw [hch0, Nat.add_zero]
      · show ((_ : Anchor)).self_children_elapsed + _ = _
        rw [hsc0]
    · rw [if_pos ⟨hmem, by simp⟩, if_neg hj,
        if_pos ⟨hmem, hj⟩, if_neg (fun h => hj h.2)]
      constructor
      · show ((_ : Anchor)).children_elapsed + _ = _
        rw [hch0]
      · show ((_ : Anchor)).self_children_elapsed + 0 = _
        rw [hsc0, Nat.add_zero]
  · rw [if_neg (fun h => hmem h.1), if_neg (fun h => hmem h.1),
      if_neg (fun h => hmem h.1)]
    rw [Nat.add_zero, Nat.add_zero]
    exact ⟨hch0, hsc0⟩

/-- C10 witness: stack `[0, 0, 1]` (anchor 0 open twice below the closing
block), closing a block of anchor 1 opened at 3 and closed at 5: anchor 0 is
charged the 2ns duration exactly once despite occurring twice on the
remaining stack. -/
theorem C10_witness :
    (∀ i ∈ ([0, 0, 1] : List Nat).dropLast,
      i < ([Anchor.new "x", Anchor.new "y"] : List Anchor).length) ∧
    ((((⟨[0, 0, 1], [Anchor.new "x", Anchor.new "y"], 0⟩ : Profiler).add_block
          ⟨1, 3⟩ 5).anchors.getD 0 default).children_elapsed
      = ((([Anchor.new "x", Anchor.new "y"] : List Anchor).getD 0
          default).children_elapsed
          + (if 0 ∈ ([0, 0, 1] : List Nat).dropLast ∧ 0 ≠ (⟨1, 3⟩ : Block).anchor_id
             then Block.elapsed ⟨1, 3⟩ 5 else 0))
    ∧ ((((⟨[0, 0, 1], [Anchor.new "x", Anchor.new "y"], 0⟩ : Profiler).add_block
          ⟨1, 3⟩ 5).anchors.getD 0 default).self_children_elapsed
      = ((([Anchor.new "x", Anchor.new "y"] : List Anchor).getD 0
          default).self_children_elapsed
          + (if 0 ∈ ([0, 0, 1] : List Nat).dropLast ∧ 0 = (⟨1, 3⟩ : Block).anchor_id
             then Block.elapsed ⟨1, 3⟩ 5 else 0)))) :=
  ⟨by decide,
   C10_dedup_charge ⟨[0, 0, 1], [Anchor.new "x", Anchor.new "y"], 0⟩
     ⟨1, 3⟩ 5 (by decide) 0⟩

/-! ### Stability of anchor ids across the registry lifetime (C7) -/


theorem findIdx?_append_left {α : Type} {q : α → Bool} {l : List α} {i : Nat}
    (h : l.findIdx? q = some i) (l₂ : List α) :
    (l ++ l₂).findIdx? q = some i := by
  rw [List.findIdx?_append, h]
  rfl

theorem findIdx?_append_right_none {α : Type} {q : α → Bool} {l : List α}
    (h : l.findIdx? q = none) (x : α) (hx : q x = true) :
    (l ++ [x]).findIdx? q = some l.length := by
  rw [List.findIdx?_append, h]
  simp [hx]

theorem findIdx?_name_eq {l l' : List Anchor} (nm : String)
    (h : l'.map Anchor.name = l.map Anchor.name) :
    l'.findIdx? (fun a => a.name == nm) = l.findIdx? (fun a => a.name == nm) := by
  have e1 : (l'.map Anchor.name).findIdx? (fun s => s == nm)
      = l'.findIdx? (fun a => a.name == nm) := by
    rw [List.findIdx?_map]
    rfl
  have e2 : (l.map Anchor.name).findIdx? (fun s => s == nm)
      = l.findIdx? (fun a => a.name == nm) := by
    rw [List.findIdx?_map]
    rfl
  rw [← e1, ← e2, h]

theorem countP_name_eq {l l' : List Anchor} (nm : String)
    (h : l'.map Anchor.name = l.map Anchor.name) :
    l'.countP (fun a => a.name == nm) = l.countP (fun a => a.name == nm) := by
  have e1 : (l'.map Anchor.name).countP (fun s => s == nm)
      = l'.countP (fun a => a.name == nm) := by
    rw [List.countP_map]
    rfl
  have e2 : (l.map Anchor.name).countP (fun s => s == nm)
      = l.countP (fun a => a.name == nm) := by
    rw [List.countP_map]
    rfl
  rw [← e1, ← e2, h]

theorem names_add_block (p : Profiler) (b : Block) (now : Nat) :
    (p.add_block b now).anchors.map Anchor.name
      = p.anchors.map Anchor.name := by
  show (updateChildrenLoop b.anchor_id (b.elapsed now)
      p.anchor_id_stack.dropLast []
      (p.anchors.set b.anchor_id
        ((p.anchors.getD b.anchor_id default).update (b.elapsed now)))).map
      Anchor.name = _
  rw [loop_map_eq Anchor.name (fun _ _ => rfl) (fun _ _ => rfl)]
  exact map_set_invariant Anchor.name _ _ _ rfl

theorem names_add_bytes (p : Profiler) (i n : Nat) :
    (p.add_bytes i n).anchors.map Anchor.name
      = p.anchors.map Anchor.name := by
  exact map_set_invariant Anchor.name _ _ _ rfl


theorem nameInv_applyOp (name : String) (i₀ : Nat) (p : Profiler) (o : Op)
    (h : NameInv name i₀ p) : NameInv name i₀ (applyOp p o) := by
  obtain ⟨hf, hc⟩ := h
  cases o with
  | lookup nm =>
      show NameInv name i₀ (p.get_anchor_id nm).2
      cases hfind : p.anchors.findIdx? (fun a => a.name == nm) with
      | some i =>
          rw [gai_found hfind]
          exact ⟨hf, hc⟩
      | none =>
          rw [gai_none hfind]
          cases hq : ((Anchor.new nm).name == name) with
          | true =>
              have hnmeq : nm = name := by
                simpa [Anchor.new] using hq
              subst hnmeq
              rw [hf] at hfind
              cases hfind
          | false =>
              refine ⟨findIdx?_append_left hf _, ?_⟩
              show (p.anchors ++ [Anchor.new nm]).countP _ = 1
              rw [List.countP_append]
              simp [hq, hc]
  | closeBlock i st now =>
      have hmap := names_add_block p ⟨i, st⟩ now
      exact ⟨(findIdx?_name_eq name hmap).trans hf,
        (countP_name_eq name hmap).trans hc⟩
  | addBytes i n =>
      have hmap := names_add_bytes p i n
      exact ⟨(findIdx?_name_eq name hmap).trans hf,
        (countP_name_eq name hmap).trans hc⟩
  | reinit now => exact ⟨hf, hc⟩
  | report now => exact ⟨hf, hc⟩

theorem nameInv_applyOps (name : String) (i₀ : Nat) :
    ∀ (ops : List Op) (p : Profiler), NameInv name i₀ p →
      NameInv name i₀ (applyOps p ops) := by
  intro ops
  induction ops with
  | nil => intro p h; exact h
  | cons o rest ih =>
      intro p h
      exact ih (applyOp p o) (nameInv_applyOp name i₀ p o h)

theorem nameInv_after_first (p : Profiler) (name : String)
    (hc : p.anchors.countP (fun a => a.name == name) ≤ 1) :
    NameInv name (p.get_anchor_id name).1 ((p.get_anchor_id name).2) := by
  cases hfind : p.anchors.findIdx? (fun a => a.name == name) with
  | some i =>
      rw [gai_found hfind]
      refine ⟨hfind, ?_⟩
      have hpos : 0 < p.anchors.countP (fun a => a.name == name) :=
        List.countP_pos_iff.mpr (by
          obtain ⟨hlt, hp, -⟩ := List.findIdx?_eq_some_iff_getElem.mp hfind
          exact ⟨p.anchors[i], List.getElem_mem hlt, hp⟩)
      show p.anchors.countP (fun a => a.name == name) = 1
      omega
  | none =>
      rw [gai_none hfind]
      have hzero : p.anchors.countP (fun a => a.name == name) = 0 :=
        List.countP_eq_zero.mpr (by
          intro a ha
          simpa using List.findIdx?_eq_none_iff.mp hfind a ha)
      refine ⟨findIdx?_append_right_none hfind _ (by simp [Anchor.new]), ?_⟩
      show (p.anchors ++ [Anchor.new name]).countP _ = 1
      rw [List.countP_append, hzero]
      simp [Anchor.new]

/-- C7: the id returned for a name is stable for the lifetime of the
registry — after the first lookup of `name`, any sequence of further API
operations (lookups of any names, block completions, byte accounting,
`init`, `print`) leaves a later lookup of `name` returning the same id, and
the registry holds exactly one anchor named `name` throughout.  The
hypothesis (at most one anchor already carries the name) holds in every
API-reachable registry. -/
theorem C7_same_id (p : Profiler) (name : String) (ops : List Op)
    (hc : p.anchors.countP (fun a => a.name == name) ≤ 1) :
    ((applyOps ((p.get_anchor_id name).2) ops).get_anchor_id name).1
      = (p.get_anchor_id name).1
    ∧ (applyOps ((p.get_anchor_id name).2) ops).anchors.countP
        (fun a => a.name == name) = 1 := by
  obtain ⟨hf, hcnt⟩ := nameInv_applyOps name (p.get_anchor_id name).1 ops _
    (nameInv_after_first p name hc)
  refine ⟨?_, hcnt⟩
  rw [gai_found hf]

/-- C7 witness: on a fresh registry, look up "a", then perform a lookup of
"b", a second lookup of "a", and an `init`: the final lookup of "a" returns
the original id and the registry holds exactly one anchor named "a". -/
theorem C7_witness :
    (Profiler.new 0).anchors.countP (fun a => a.name == "a") ≤ 1 ∧
    (((applyOps (((Profiler.new 0).get_anchor_id "a").2)
          [Op.lookup "b", Op.lookup "a", Op.reinit 5]).get_anchor_id "a").1
        = ((Profiler.new 0).get_anchor_id "a").1
      ∧ (applyOps (((Profiler.new 0).get_anchor_id "a").2)
          [Op.lookup "b", Op.lookup "a", Op.reinit 5]).anchors.countP
          (fun a => a.name == "a") = 1) :=
  ⟨by decide,
   C7_same_id (Profiler.new 0) "a" [Op.lookup "b", Op.lookup "a", Op.reinit 5]
     (by decide)⟩

end PProf
